import Mathlib

/-!
Shallow embedding of `YACReader::ConcurrentQueue` (concurrent_queue.h).

The C++ class is a fixed-thread job pool: `enqueue` increments `jobsLeft`
under `jobsLeftMutex`, appends the job to `_queue` under `queueMutex`, and
signals one worker; each worker loops in `nextJob`, popping the head job
under `queueMutex` and running it with no lock held, then calling
`finalizeJobs(1)`; `cancelPending` swaps the whole queue out under
`queueMutex` and charges `jobsLeft` by the drained count via
`finalizeJobs(size)`; `waitAll` blocks until `jobsLeft == 0`; `joinAll`
sets the one-shot `bailout` flag and joins the workers.

Because every mutation of shared state happens inside one of the two
critical sections, an execution of the pool is a sequence of atomic
actions.  `Step` below lists exactly those atomic actions, one constructor
per lock-protected mutation in the source, together with ghost history
fields (`submitted`, `appended`, `popped`, `executed`, `drained`) that
record which job went where.  Jobs are identified by their submission
identity, modelled as a natural number.
-/

namespace YACReader

/-- A job, identified by its submission identity (the `std::function` object
handed to `enqueue`). Its observable contribution, when needed, is given by
a separate function `Job → Int`. -/
abbrev Job := Nat

/-- The shared state of a `ConcurrentQueue`, plus ghost history fields.

Concrete fields from the source: `queue` is `_queue` (head = front),
`jobsLeft` is the completion counter, `bailout` the one-shot teardown flag.

Ghost fields: `pending` holds jobs whose `++jobsLeft` has happened but whose
`_queue.emplace(job)` has not (the window between the two critical sections
of `enqueue`); `running` holds jobs popped by a worker but not yet charged
by `finalizeJobs(1)`; `debt` holds batches drained by `cancelPending`'s swap
whose `finalizeJobs(size)` call has not yet decremented the counter;
`submitted`, `appended`, `popped`, `executed`, `drained` are append-only
histories, in event order. -/
structure PoolState where
  pending : List Job
  queue : List Job
  running : List Job
  debt : List (List Job)
  jobsLeft : Int
  bailout : Bool
  submitted : List Job
  appended : List Job
  popped : List Job
  executed : List Job
  drained : List Job
deriving Repr, DecidableEq

/-- The state right after the constructor: `jobsLeft(0)`, `bailout(false)`,
empty queue. -/
def initState : PoolState :=
  { pending := [], queue := [], running := [], debt := [],
    jobsLeft := 0, bailout := false,
    submitted := [], appended := [], popped := [], executed := [], drained := [] }

/-- One atomic (lock-protected) action of the pool.  Each constructor is one
critical section of the source:

* `enqInc`      — `enqueue` lines 36–39: `++jobsLeft` under `jobsLeftMutex`;
* `enqAppend`   — `enqueue` lines 41–44: `_queue.emplace(job)` under
  `queueMutex` (the job leaves the mid-enqueue window at an arbitrary
  position, to allow racing producers);
* `pop`         — `nextJob` lines 94–110: take the head job under
  `queueMutex`; guarded by `bailout == false` (lines 96 and 104);
* `finish`      — `nextJob` line 113 / `finalizeJobs(1)` lines 122–127:
  after running the job, `jobsLeft -= 1` under `jobsLeftMutex`;
* `cancelSwap`  — `cancelPending` lines 54–59: `_queue.swap(oldQueue)`
  under `queueMutex`; the batch is owed to the counter only when non-empty
  (line 63: `finalizeJobs` is called only `if (size != 0)`);
* `cancelFin`   — `cancelPending` line 64 / `finalizeJobs(size)`:
  `jobsLeft -= size` under `jobsLeftMutex`;
* `setBailout`  — `joinAll` lines 136–144: `bailout = true` under
  `queueMutex`.
-/
inductive Step : PoolState → PoolState → Prop
  | enqInc (s : PoolState) (j : Job) :
      Step s { s with jobsLeft := s.jobsLeft + 1,
                      pending := s.pending ++ [j],
                      submitted := s.submitted ++ [j] }
  | enqAppend (s : PoolState) (j : Job) (p₁ p₂ : List Job)
      (h : s.pending = p₁ ++ j :: p₂) :
      Step s { s with pending := p₁ ++ p₂,
                      queue := s.queue ++ [j],
                      appended := s.appended ++ [j] }
  | pop (s : PoolState) (j : Job) (rest : List Job)
      (hb : s.bailout = false) (hq : s.queue = j :: rest) :
      Step s { s with queue := rest,
                      running := s.running ++ [j],
                      popped := s.popped ++ [j] }
  | finish (s : PoolState) (j : Job) (r₁ r₂ : List Job)
      (h : s.running = r₁ ++ j :: r₂) :
      Step s { s with running := r₁ ++ r₂,
                      jobsLeft := s.jobsLeft - 1,
                      executed := s.executed ++ [j] }
  | cancelSwap (s : PoolState) :
      Step s { s with queue := [],
                      debt := if s.queue.isEmpty then s.debt else s.debt ++ [s.queue],
                      drained := s.drained ++ s.queue }
  | cancelFin (s : PoolState) (b : List Job) (d₁ d₂ : List (List Job))
      (h : s.debt = d₁ ++ b :: d₂) :
      Step s { s with debt := d₁ ++ d₂,
                      jobsLeft := s.jobsLeft - (b.length : Int) }
  | setBailout (s : PoolState) :
      Step s { s with bailout := true }

/-- Zero or more atomic actions. -/
inductive Reach : PoolState → PoolState → Prop
  | refl (s : PoolState) : Reach s s
  | tail {s t u : PoolState} : Reach s t → Step t u → Reach s u

/-- A state the pool can be in at some observation point of some execution. -/
def Reachable (s : PoolState) : Prop := Reach initState s

/-! Sequential (un-raced) models of the public operations, translated
member by member from the source. -/

/-- Model of `enqueue` (lines 34–47) run without interleaving: both critical
sections back to back, then `jobAvailableVar.notify_one()` (no state). -/
def enqueue (s : PoolState) (j : Job) : PoolState :=
  { s with jobsLeft := s.jobsLeft + 1,
           queue := s.queue ++ [j],
           submitted := s.submitted ++ [j],
           appended := s.appended ++ [j] }

/-- Model of `finalizeJobs` (lines 117–132): `jobsLeft -= count`, remember
the remaining count, and `_waitVar.notify_all()` exactly when it reached 0.
Returns the new state and whether the waiters were notified. -/
def finalizeJobs (count : Int) (s : PoolState) : PoolState × Bool :=
  let remainingJobs := s.jobsLeft - count
  ({ s with jobsLeft := remainingJobs }, remainingJobs == 0)

/-- Conjunction of the assertions inside `finalizeJobs`:
`assert(count > 0)` (line 119), `assert(jobsLeft >= count)` (line 124) and
`assert(remainingJobs >= 0)` (line 129). -/
def finalizeAssertsOk (count : Int) (s : PoolState) : Prop :=
  0 < count ∧ count ≤ s.jobsLeft ∧ 0 ≤ s.jobsLeft - count

instance (count : Int) (s : PoolState) : Decidable (finalizeAssertsOk count s) := by
  unfold finalizeAssertsOk; infer_instance

/-- The assertion of `cancelPending` line 62:
`assert(size <= std::numeric_limits<int>::max())`. -/
def cancelSizeRepresentable (s : PoolState) : Prop :=
  (s.queue.length : Int) ≤ 2 ^ 31 - 1

instance (s : PoolState) : Decidable (cancelSizeRepresentable s) := by
  unfold cancelSizeRepresentable; infer_instance

/-- Model of `cancelPending` (lines 51–66) run without interleaving:
swap the whole queue out in one step, then, only if the drained count is
non-zero, charge the counter via `finalizeJobs(size)`.  Returns
(the returned count, the new state, whether waiters were notified). -/
def cancelPending (s : PoolState) : Nat × PoolState × Bool :=
  let oldQueue := s.queue
  let swapped : PoolState := { s with queue := [], drained := s.drained ++ oldQueue }
  let size := oldQueue.length
  if size ≠ 0 then
    let fin := finalizeJobs (size : Int) swapped
    (size, fin.1, fin.2)
  else (size, swapped, false)

/-- The branch condition of `waitAll` (line 71): the call returns
immediately exactly when `jobsLeft > 0` is false. -/
def waitAllReturnsImmediately (s : PoolState) : Bool :=
  !(decide (0 < s.jobsLeft))

/-- The condition-variable predicate of `waitAll` (lines 72–74):
a blocked waiter may return only once `jobsLeft == 0`. -/
def waitAllWakeCond (s : PoolState) : Bool :=
  decide (s.jobsLeft = 0)

/-- The condition-variable predicate of the worker wait in `nextJob`
(lines 100–102): `_queue.size() > 0 || bailout`. -/
def workerWakeCond (s : PoolState) : Bool :=
  decide (0 < s.queue.length) || s.bailout

/-- The check at `nextJob` line 96: a worker proceeds to wait only when
`bailout` is unset, otherwise it returns at once. -/
def workerEntersWait (s : PoolState) : Bool :=
  !s.bailout

/-- Model of the decision a worker takes after waking inside `nextJob`
(lines 104–110): if `bailout` is set, terminate (`none`) without popping;
otherwise pop the head of the queue.  `none` on an empty queue cannot be
reached from a wake with the wait predicate true and `bailout` unset. -/
def nextJobAfterWake (s : PoolState) : Option (Job × PoolState) :=
  if s.bailout then none
  else
    match s.queue with
    | [] => none
    | j :: rest =>
        some (j, { s with queue := rest,
                          running := s.running ++ [j],
                          popped := s.popped ++ [j] })

/-- Model of `nextJob` lines 112–113, `job(); finalizeJobs(1);`, for the
worker that popped job `j`: the source wraps `job()` in no handler, so when
a failure escapes the job body (`jobFails = true`) control never reaches
`finalizeJobs(1)` — no decrement, no wake (`none`).  Otherwise the job's
completion is recorded and `finalizeJobs 1` runs. -/
def runAndFinalize (jobFails : Bool) (j : Job) (s : PoolState) :
    Option (PoolState × Bool) :=
  if jobFails then none
  else
    let done : PoolState :=
      { s with running := s.running.erase j, executed := s.executed ++ [j] }
    some (finalizeJobs 1 done)

/-- Model of `joinAll` (lines 134–153) run without interleaving: the
idempotent guard returns at once when `bailout` is already set; otherwise
the flag is set (then all workers are woken and joined, which mutates no
shared state).  The boolean records whether the guard returned early. -/
def joinAll (s : PoolState) : PoolState × Bool :=
  if s.bailout then (s, true)
  else ({ s with bailout := true }, false)

/-- Total size of the drained-but-not-yet-charged batches. -/
def debtSize (s : PoolState) : Nat :=
  (s.debt.map List.length).sum

/-- All the places an already-submitted job can currently be. -/
def allSlots (s : PoolState) : List Job :=
  s.pending ++ s.queue ++ s.running ++ s.executed ++ s.drained

/-- Multiset view of `allSlots`. -/
def slotsM (s : PoolState) : Multiset Job :=
  (s.pending : Multiset Job) + (s.queue : Multiset Job) +
    (s.running : Multiset Job) + (s.executed : Multiset Job) +
    (s.drained : Multiset Job)

/-- Concrete state used to exercise the theorems: reached from `initState`
by fully enqueuing jobs `10` and `20` and letting a worker pop job `10`
(still in flight). -/
def sC : PoolState :=
  { pending := [], queue := [20], running := [10], debt := [],
    jobsLeft := 2, bailout := false,
    submitted := [10, 20], appended := [10, 20], popped := [10],
    executed := [], drained := [] }

/-- Concrete state: like `sC` but the worker has finished job `10`. -/
def sA : PoolState :=
  { pending := [], queue := [20], running := [], debt := [],
    jobsLeft := 1, bailout := false,
    submitted := [10, 20], appended := [10, 20], popped := [10],
    executed := [10], drained := [] }

/-- Concrete state: job `7` fully enqueued, then teardown began
(`bailout` set) before any worker picked it up. -/
def sB : PoolState :=
  { pending := [], queue := [7], running := [], debt := [],
    jobsLeft := 1, bailout := true,
    submitted := [7], appended := [7], popped := [],
    executed := [], drained := [] }

/-- Concrete state: job `5` popped by a worker and about to run,
`jobsLeft` still 1. -/
def w7 : PoolState :=
  { pending := [], queue := [], running := [5], debt := [],
    jobsLeft := 1, bailout := false,
    submitted := [5], appended := [5], popped := [5],
    executed := [], drained := [] }

theorem Reach.trans {s t u : PoolState} (h₁ : Reach s t) (h₂ : Reach t u) :
    Reach s u := by
  induction h₂ with
  | refl => exact h₁
  | tail _ hs ih => exact Reach.tail ih hs

theorem slotsM_coe (s : PoolState) : slotsM s = (allSlots s : Multiset Job) := by
  simp [slotsM, allSlots, Multiset.coe_add]

/-- The accounting identity is preserved by every atomic action. -/
theorem Step.counts {s t : PoolState} (hs : Step s t)
    (ih : s.jobsLeft =
      ((s.pending.length + s.queue.length + s.running.length + debtSize s : Nat) : Int)) :
    t.jobsLeft =
      ((t.pending.length + t.queue.length + t.running.length + debtSize t : Nat) : Int) := by
  cases hs with
  | enqInc j => simp [debtSize] at ih ⊢; omega
  | enqAppend j p₁ p₂ h => simp [debtSize, h] at ih ⊢; omega
  | pop j rest hb hq => simp [debtSize, hq] at ih ⊢; omega
  | finish j r₁ r₂ h => simp [debtSize, h] at ih ⊢; omega
  | cancelSwap =>
    cases hq : s.queue with
    | nil => simp [debtSize, hq] at ih ⊢; omega
    | cons a l => simp [debtSize, hq] at ih ⊢; omega
  | cancelFin b d₁ d₂ h => simp [debtSize, h] at ih ⊢; omega
  | setBailout => simpa [debtSize] using ih

/-- Exact accounting invariant: at every observation point, `jobsLeft`
equals the number of mid-enqueue jobs plus queued jobs plus in-flight jobs
plus drained-but-not-yet-charged jobs. -/
theorem jobsLeft_eq_counts {s : PoolState} (h : Reachable s) :
    s.jobsLeft =
      ((s.pending.length + s.queue.length + s.running.length + debtSize s : Nat) : Int) := by
  induction h with
  | refl => rfl
  | tail _ hs ih => exact hs.counts ih

/-- The slot partition of the submission history is preserved by every
atomic action. -/
theorem Step.slots {s t : PoolState} (hs : Step s t)
    (ih : (s.submitted : Multiset Job) = slotsM s) :
    (t.submitted : Multiset Job) = slotsM t := by
  cases hs with
  | enqInc j =>
    simp only [slotsM, ← Multiset.coe_add, ← Multiset.cons_coe,
      ← Multiset.singleton_add, Multiset.coe_nil] at ih ⊢
    rw [ih]; abel
  | enqAppend j p₁ p₂ h =>
    simp only [slotsM, h, ← Multiset.coe_add, ← Multiset.cons_coe,
      ← Multiset.singleton_add, Multiset.coe_nil] at ih ⊢
    rw [ih]; abel
  | pop j rest hb hq =>
    simp only [slotsM, hq, ← Multiset.coe_add, ← Multiset.cons_coe,
      ← Multiset.singleton_add, Multiset.coe_nil] at ih ⊢
    rw [ih]; abel
  | finish j r₁ r₂ h =>
    simp only [slotsM, h, ← Multiset.coe_add, ← Multiset.cons_coe,
      ← Multiset.singleton_add, Multiset.coe_nil] at ih ⊢
    rw [ih]; abel
  | cancelSwap =>
    simp only [slotsM, ← Multiset.coe_add, ← Multiset.cons_coe,
      ← Multiset.singleton_add, Multiset.coe_nil] at ih ⊢
    rw [ih]; abel
  | cancelFin b d₁ d₂ h => simpa [slotsM] using ih
  | setBailout => simpa [slotsM] using ih

/-- Every submitted job is, at every observation point, in exactly one of
the five slots: mid-enqueue, queued, in flight, executed, drained (as a
multiset identity over the submission history). -/
theorem submitted_eq_slots {s : PoolState} (h : Reachable s) :
    (s.submitted : Multiset Job) = slotsM s := by
  induction h with
  | refl => rfl
  | tail _ hs ih => exact hs.slots ih

/-- The popped-jobs identity is preserved by every atomic action. -/
theorem Step.popped_id {s t : PoolState} (hs : Step s t)
    (ih : (s.popped : Multiset Job) =
      (s.running : Multiset Job) + (s.executed : Multiset Job)) :
    (t.popped : Multiset Job) =
      (t.running : Multiset Job) + (t.executed : Multiset Job) := by
  cases hs with
  | enqInc j => simpa using ih
  | enqAppend j p₁ p₂ h => simpa using ih
  | pop j rest hb hq =>
    simp only [← Multiset.coe_add, ← Multiset.cons_coe,
      ← Multiset.singleton_add, Multiset.coe_nil] at ih ⊢
    rw [ih]; abel
  | finish j r₁ r₂ h =>
    simp only [h, ← Multiset.coe_add, ← Multiset.cons_coe,
      ← Multiset.singleton_add, Multiset.coe_nil] at ih ⊢
    rw [ih]; abel
  | cancelSwap => simpa using ih
  | cancelFin b d₁ d₂ h => simpa using ih
  | setBailout => simpa using ih

/-- Every job ever popped by a worker is, at every observation point,
either still in flight or already executed (multiset identity). -/
theorem popped_eq_running_executed {s : PoolState} (h : Reachable s) :
    (s.popped : Multiset Job) =
      (s.running : Multiset Job) + (s.executed : Multiset Job) := by
  induction h with
  | refl => rfl
  | tail _ hs ih => exact hs.popped_id ih

/-- The FIFO split of the append history is preserved by every atomic
action, as long as the drain history stays empty. -/
theorem Step.fifo {s t : PoolState} (hs : Step s t)
    (ih : s.drained = [] → s.appended = s.popped ++ s.queue)
    (hd : t.drained = []) : t.appended = t.popped ++ t.queue := by
  cases hs with
  | enqInc j => exact ih hd
  | enqAppend j p₁ p₂ h =>
    simp only at hd ⊢
    rw [ih hd, List.append_assoc]
  | pop j rest hb hq =>
    simp only at hd ⊢
    rw [List.append_assoc, List.singleton_append, ← hq]
    exact ih hd
  | finish j r₁ r₂ h => exact ih hd
  | cancelSwap =>
    simp only [List.append_eq_nil] at hd
    simp only [List.append_nil]
    rw [ih hd.1, hd.2, List.append_nil]
  | cancelFin b d₁ d₂ h => exact ih hd
  | setBailout => exact ih hd

/-- FIFO invariant: as long as no drain has happened, the queue-append
history splits exactly into the popped prefix followed by the current
queue, in order. -/
theorem appended_eq_popped_append_queue {s : PoolState} (h : Reachable s)
    (hd : s.drained = []) : s.appended = s.popped ++ s.queue := by
  induction h with
  | refl => rfl
  | tail _ hs ih => exact hs.fifo ih hd

/-- Non-emptiness of owed batches is preserved by every atomic action. -/
theorem Step.debt_ne_nil {s t : PoolState} (hs : Step s t)
    (ih : ∀ b ∈ s.debt, b ≠ []) : ∀ b ∈ t.debt, b ≠ [] := by
  cases hs with
  | enqInc j => simpa using ih
  | enqAppend j p₁ p₂ h => simpa using ih
  | pop j rest hb hq => simpa using ih
  | finish j r₁ r₂ h => simpa using ih
  | cancelSwap =>
    cases hq : s.queue with
    | nil => simpa [hq] using ih
    | cons a l =>
      intro b hb
      simp only [hq, List.isEmpty_cons, Bool.false_eq_true, if_false,
        List.mem_append, List.mem_singleton] at hb
      rcases hb with hb | hb
      · exact ih b hb
      · subst hb; simp
  | cancelFin b d₁ d₂ h =>
    intro c hc
    refine ih c ?_
    rw [h]
    simp only [List.mem_append] at hc ⊢
    rcases hc with hc | hc
    · exact Or.inl hc
    · exact Or.inr (List.mem_cons_of_mem _ hc)
  | setBailout => simpa using ih

/-- Batches owed to the counter are never empty: `cancelPending` calls
`finalizeJobs` only when the drained size is non-zero. -/
theorem debt_batches_ne_nil {s : PoolState} (h : Reachable s) :
    ∀ b ∈ s.debt, b ≠ [] := by
  induction h with
  | refl => simp [initState]
  | tail _ hs ih => exact hs.debt_ne_nil ih

/-- Emptiness of the debt under an empty drain history is preserved by
every atomic action. -/
theorem Step.debt_nil {s t : PoolState} (hs : Step s t)
    (ih : s.drained = [] → s.debt = [])
    (hd : t.drained = []) : t.debt = [] := by
  cases hs with
  | enqInc j => exact ih hd
  | enqAppend j p₁ p₂ h => exact ih hd
  | pop j rest hb hq => exact ih hd
  | finish j r₁ r₂ h => exact ih hd
  | cancelSwap =>
    simp only [List.append_eq_nil] at hd
    simp [hd.2, ih hd.1]
  | cancelFin b d₁ d₂ h =>
    rw [ih hd] at h
    exact absurd h (by simp)
  | setBailout => exact ih hd

/-- While the drain history is empty, no batch is owed to the counter. -/
theorem debt_nil_of_drained_nil {s : PoolState} (h : Reachable s)
    (hd : s.drained = []) : s.debt = [] := by
  induction h with
  | refl => rfl
  | tail _ hs ih => exact hs.debt_nil ih hd

/-- The bailout flag is one-shot: no atomic action resets it. -/
theorem Step.bailout_mono {s t : PoolState} (hs : Step s t)
    (hb : s.bailout = true) : t.bailout = true := by
  cases hs with
  | pop j rest hb' hq => rw [hb] at hb'; cases hb'
  | enqInc j => exact hb
  | enqAppend j p₁ p₂ h => exact hb
  | finish j r₁ r₂ h => exact hb
  | cancelSwap => exact hb
  | cancelFin b d₁ d₂ h => exact hb
  | setBailout => rfl

/-- Once set, the bailout flag stays set along any execution. -/
theorem Reach.bailout_persists {s t : PoolState} (h : Reach s t)
    (hb : s.bailout = true) : t.bailout = true := by
  induction h with
  | refl => exact hb
  | tail _ hs ih => exact hs.bailout_mono ih

/-- After bailout is set, no worker ever pops another job. -/
theorem Reach.popped_frozen {s t : PoolState} (h : Reach s t)
    (hb : s.bailout = true) : t.popped = s.popped := by
  induction h with
  | refl => rfl
  | tail hr hs ih =>
    have hbt := hr.bailout_persists hb
    cases hs with
    | pop j rest hb' hq => rw [hbt] at hb'; cases hb'
    | enqInc j => exact ih
    | enqAppend j p₁ p₂ h => exact ih
    | finish j r₁ r₂ h => exact ih
    | cancelSwap => exact ih
    | cancelFin b d₁ d₂ h => exact ih
    | setBailout => exact ih

/-- A job that sits in the queue (or the drain history) when bailout is
already set can only stay queued or be drained; it is never picked up and
never executed from then on. -/
theorem queue_job_after_bailout {s t : PoolState} (h : Reach s t)
    (hb : s.bailout = true) {j : Job}
    (hq : j ∈ s.queue ∨ j ∈ s.drained) (hr : j ∉ s.running)
    (he : j ∉ s.executed) :
    (j ∈ t.queue ∨ j ∈ t.drained) ∧ j ∉ t.running ∧ j ∉ t.executed := by
  induction h with
  | refl => exact ⟨hq, hr, he⟩
  | tail hr' hs ih =>
    obtain ⟨ihq, ihr, ihe⟩ := ih
    have hbt := hr'.bailout_persists hb
    cases hs with
    | pop j' rest hb' hq' => rw [hbt] at hb'; cases hb'
    | enqInc j' => exact ⟨ihq, ihr, ihe⟩
    | enqAppend j' p₁ p₂ h =>
      refine ⟨?_, ihr, ihe⟩
      rcases ihq with hin | hin
      · exact Or.inl (List.mem_append_left _ hin)
      · exact Or.inr hin
    | finish j' r₁ r₂ h =>
      have hne : j ≠ j' := by
        intro hcon
        exact ihr (by rw [h, hcon]; simp)
      refine ⟨ihq, ?_, ?_⟩
      · intro hcon
        refine ihr ?_
        rw [h]
        simp only [List.mem_append] at hcon ⊢
        rcases hcon with hc | hc
        · exact Or.inl hc
        · exact Or.inr (List.mem_cons_of_mem _ hc)
      · intro hcon
        simp only [List.mem_append, List.mem_singleton] at hcon
        rcases hcon with hc | hc
        · exact ihe hc
        · exact hne hc
    | cancelSwap =>
      refine ⟨Or.inr ?_, ihr, ihe⟩
      rcases ihq with hin | hin
      · exact List.mem_append_right _ hin
      · exact List.mem_append_left _ hin
    | cancelFin b d₁ d₂ h => exact ⟨ihq, ihr, ihe⟩
    | setBailout => exact ⟨ihq, ihr, ihe⟩

theorem reachable_sC : Reachable sC := by
  have h1 := Reach.tail (Reach.refl initState) (Step.enqInc initState 10)
  have h2 := Reach.tail h1 (Step.enqAppend _ 10 [] [] rfl)
  have h3 := Reach.tail h2 (Step.enqInc _ 20)
  have h4 := Reach.tail h3 (Step.enqAppend _ 20 [] [] rfl)
  have h5 := Reach.tail h4 (Step.pop _ 10 [20] rfl rfl)
  exact h5

theorem reachable_sA : Reachable sA := by
  have h6 := Reach.tail reachable_sC (Step.finish sC 10 [] [] rfl)
  exact h6

theorem reachable_sB : Reachable sB := by
  have h1 := Reach.tail (Reach.refl initState) (Step.enqInc initState 7)
  have h2 := Reach.tail h1 (Step.enqAppend _ 7 [] [] rfl)
  have h3 := Reach.tail h2 (Step.setBailout _)
  exact h3

/-- The counter is non-negative in every reachable state. -/
theorem jobsLeft_nonneg {s : PoolState} (h : Reachable s) : 0 ≤ s.jobsLeft := by
  rw [jobsLeft_eq_counts h]
  exact Int.natCast_nonneg _

/-- C2: the Completion Counter is non-negative and at every observation
point satisfies `jobsLeft ≥ |queue|`; every atomic action of the pool
(the only increments being `enqueue`'s `++jobsLeft`, taken before the
append, and the only decrements a worker's `finalizeJobs(1)` or
cancellation's `finalizeJobs(size)`, all listed as `Step` constructors)
preserves this invariant. -/
theorem counter_invariant {s : PoolState} (h : Reachable s) :
    (0 ≤ s.jobsLeft ∧ (s.queue.length : Int) ≤ s.jobsLeft) ∧
      ∀ t, Step s t → 0 ≤ t.jobsLeft ∧ (t.queue.length : Int) ≤ t.jobsLeft := by
  have base : ∀ {u : PoolState}, Reachable u →
      0 ≤ u.jobsLeft ∧ (u.queue.length : Int) ≤ u.jobsLeft := by
    intro u hu
    rw [jobsLeft_eq_counts hu]
    constructor <;> (push_cast; omega)
  exact ⟨base h, fun t ht => base (Reach.tail h ht)⟩

theorem counter_invariant_witness :
    0 ≤ sA.jobsLeft ∧ (sA.queue.length : Int) ≤ sA.jobsLeft :=
  (counter_invariant reachable_sA).1

/-- C4: `waitAll` returns immediately exactly when the counter is 0 (its
`if (jobsLeft > 0)` branch, checked under `jobsLeftMutex`, is not taken,
e.g. right after construction), and a blocked waiter's wake condition
`jobsLeft == 0` holds in a reachable state exactly when the counter is 0,
so `waitAll` never returns while the counter is positive. -/
theorem waitAll_zero_barrier {s : PoolState} (h : Reachable s) :
    (waitAllReturnsImmediately s = true ↔ s.jobsLeft = 0) ∧
      (waitAllWakeCond s = true ↔ s.jobsLeft = 0) := by
  have h0 : 0 ≤ s.jobsLeft := jobsLeft_nonneg h
  constructor
  · simp only [waitAllReturnsImmediately, Bool.not_eq_true', decide_eq_false_iff_not,
      not_lt]
    omega
  · simp [waitAllWakeCond]

theorem waitAll_zero_barrier_witness :
    waitAllReturnsImmediately initState = true :=
  ((waitAll_zero_barrier (Reach.refl initState)).1).mpr rfl

theorem cancelPending_fst (s : PoolState) :
    (cancelPending s).1 = s.queue.length := by
  unfold cancelPending
  by_cases hq : s.queue.length ≠ 0 <;> simp [hq]

/-- C3: `cancelPending` detaches the entire current queue in one atomic
structural swap (the single `Step.cancelSwap` action), decrements the
counter by exactly the number of detached jobs, returns that number, on an
empty queue is a no-op returning 0 with no state change and no wake, and a
second call right after it always returns 0; nothing requires workers to
exist, so it is safe on a pool with zero worker threads. -/
theorem cancelPending_spec (s : PoolState) :
    (cancelPending s).1 = s.queue.length ∧
    ((cancelPending s).2.1).queue = [] ∧
    ((cancelPending s).2.1).jobsLeft = s.jobsLeft - ((cancelPending s).1 : Int) ∧
    ((cancelPending s).2.1).drained = s.drained ++ s.queue ∧
    ((cancelPending s).2.1).bailout = s.bailout ∧
    (s.queue = [] → cancelPending s = (0, s, false)) ∧
    (cancelPending ((cancelPending s).2.1)).1 = 0 ∧
    (cancelPending ((cancelPending s).2.1)).2.1 = (cancelPending s).2.1 ∧
    Step s { s with queue := [],
                    debt := if s.queue.isEmpty then s.debt else s.debt ++ [s.queue],
                    drained := s.drained ++ s.queue } := by
  cases s with
  | mk pending queue running debt jobsLeft bailout submitted appended popped executed
      drained =>
    by_cases hq : queue = []
    · subst hq
      refine ⟨?_, ?_, ?_, ?_, ?_, ?_, ?_, ?_, Step.cancelSwap _⟩ <;>
        simp [cancelPending, finalizeJobs]
    · have hl : queue.length ≠ 0 := by simpa [List.length_eq_zero] using hq
      refine ⟨?_, ?_, ?_, ?_, ?_, ?_, ?_, ?_, Step.cancelSwap _⟩ <;>
        simp [cancelPending, finalizeJobs, hl, hq]

theorem cancelPending_spec_witness :
    (cancelPending sA).1 = 1 ∧ cancelPending initState = (0, initState, false) :=
  ⟨(cancelPending_spec sA).1,
   (cancelPending_spec initState).2.2.2.2.2.1 rfl⟩

/-- C5: a worker checks `bailout` before waiting (`workerEntersWait`) and
re-checks it after waking; whenever it observes `bailout` set it terminates
without popping (`none`), it pops the head job only when `bailout` is unset
and the queue is non-empty (so a bailout or spurious wake never causes a
pop), and the pop is a separate atomic action (`Step`) from running the
job: the popped state has the job still unexecuted, the queue lock being
released before `job()` runs. -/
theorem worker_bailout_discipline (s : PoolState) :
    (s.bailout = true → workerEntersWait s = false ∧ nextJobAfterWake s = none) ∧
    (∀ j t, nextJobAfterWake s = some (j, t) →
        s.bailout = false ∧ s.queue = j :: t.queue ∧
        t.executed = s.executed ∧ t.jobsLeft = s.jobsLeft ∧ Step s t) ∧
    (workerWakeCond s = true → s.bailout = false →
        ∃ j t, nextJobAfterWake s = some (j, t)) := by
  refine ⟨?_, ?_, ?_⟩
  · intro hb
    constructor
    · simp [workerEntersWait, hb]
    · simp [nextJobAfterWake, hb]
  · intro j t hsome
    unfold nextJobAfterWake at hsome
    by_cases hb : s.bailout = true
    · simp [hb] at hsome
    · have hbf : s.bailout = false := by simpa using hb
      rw [if_neg hb] at hsome
      cases hq : s.queue with
      | nil => rw [hq] at hsome; cases hsome
      | cons a rest =>
        rw [hq] at hsome
        simp only [Option.some.injEq, Prod.mk.injEq] at hsome
        obtain ⟨rfl, rfl⟩ := hsome
        exact ⟨hbf, rfl, rfl, rfl, Step.pop s a rest hbf hq⟩
  · intro hwake hb
    cases hq : s.queue with
    | nil => simp [workerWakeCond, hq, hb] at hwake
    | cons a rest =>
      refine ⟨a, { s with queue := rest, running := s.running ++ [a],
                          popped := s.popped ++ [a] }, ?_⟩
      simp [nextJobAfterWake, hb, hq]

theorem worker_bailout_discipline_witness :
    nextJobAfterWake sB = none ∧ ∃ j t, nextJobAfterWake sA = some (j, t) :=
  ⟨((worker_bailout_discipline sB).1 rfl).2,
   (worker_bailout_discipline sA).2.2 rfl rfl⟩

/-- C6: teardown is idempotent: `joinAll` always leaves `bailout` set, a
call that finds `bailout` already set returns immediately with no state
change (second component `true` marks the early return), the first call on
a live pool performs exactly the `bailout := true` transition (an atomic
`Step`), a repeated call after any `joinAll` is an early-return no-op, and
no atomic action of the pool ever resets the flag. -/
theorem joinAll_idempotent (s : PoolState) :
    ((joinAll s).1).bailout = true ∧
    (s.bailout = true → joinAll s = (s, true)) ∧
    (s.bailout = false →
        (joinAll s).1 = { s with bailout := true } ∧ Step s (joinAll s).1) ∧
    joinAll ((joinAll s).1) = ((joinAll s).1, true) ∧
    (∀ t, Step s t → s.bailout = true → t.bailout = true) := by
  refine ⟨?_, ?_, ?_, ?_, fun t ht hb => ht.bailout_mono hb⟩
  · cases hb : s.bailout <;> simp [joinAll, hb]
  · intro hb; simp [joinAll, hb]
  · intro hb
    refine ⟨by simp [joinAll, hb], ?_⟩
    have := Step.setBailout s
    simpa [joinAll, hb] using this
  · cases hb : s.bailout <;> simp [joinAll, hb]

theorem joinAll_idempotent_witness :
    joinAll sB = (sB, true) ∧
      joinAll ((joinAll initState).1) = ((joinAll initState).1, true) :=
  ⟨(joinAll_idempotent sB).2.1 rfl, (joinAll_idempotent initState).2.2.2.1⟩

/-- Formalizes C7 as stated: at the concrete in-flight state `w7`
(counter 1, job 5 running), a failure escaping the job body reaches no
`finalizeJobs(1)` call — `job(); finalizeJobs(1);` at `nextJob` lines
112–113 has no handler — so there exists no post-state at all, let alone
one with the counter decremented: the claimed catch-and-decrement is
false. -/
theorem job_failure_not_caught_cex :
    runAndFinalize true 5 w7 = none ∧
    ¬∃ r : PoolState × Bool,
        runAndFinalize true 5 w7 = some r ∧ r.1.jobsLeft = w7.jobsLeft - 1 := by
  constructor
  · rfl
  · rintro ⟨r, hr, -⟩
    simp [runAndFinalize] at hr

/-- C7 (amended): the implementation does not catch a failure escaping a
job's body: the worker performs no Completion Counter decrement and no
zero-notification for that job (the counter stays permanently elevated and
the worker leaves the loop); only when the job body returns normally does
the worker run `finalizeJobs(1)`, decrementing the counter by 1 and
notifying waiters exactly when it reaches 0. -/
theorem job_failure_skips_finalize (s : PoolState) (j : Job) :
    runAndFinalize true j s = none ∧
    runAndFinalize false j s =
      some ({ s with running := s.running.erase j,
                     executed := s.executed ++ [j],
                     jobsLeft := s.jobsLeft - 1 },
            s.jobsLeft - 1 == 0) := by
  exact ⟨rfl, rfl⟩

/-- C1: with jobs identified by their submission (`submitted` duplicate
free), every submitted job is at every observation point in exactly one
place — mid-enqueue, queued, in flight, executed, or drained by
cancellation — so it is executed at most once, never both executed and
drained (jobs still in the first three slots at teardown are the dropped
ones); and while `bailout` is unset the pop of a queued head job is always
an enabled atomic action, which is how a pending job eventually reaches a
worker. -/
theorem job_disposition {s : PoolState} (h : Reachable s)
    (hnd : s.submitted.Nodup) :
    (∀ j ∈ s.submitted,
        j ∈ s.pending ∨ j ∈ s.queue ∨ j ∈ s.running ∨ j ∈ s.executed ∨
          j ∈ s.drained) ∧
    s.executed.Nodup ∧
    (∀ j, ¬(j ∈ s.executed ∧ j ∈ s.drained)) ∧
    (∀ j ∈ s.executed, j ∈ s.submitted) ∧
    (∀ j ∈ s.drained, j ∈ s.submitted) ∧
    (s.bailout = false → ∀ j rest, s.queue = j :: rest →
        Step s { s with queue := rest, running := s.running ++ [j],
                        popped := s.popped ++ [j] }) := by
  have hme : (s.submitted : Multiset Job) = ((allSlots s : List Job) : Multiset Job) := by
    rw [submitted_eq_slots h, slotsM_coe]
  have hperm : s.submitted.Perm (allSlots s) := Multiset.coe_eq_coe.mp hme
  have hslots : (allSlots s).Nodup := hperm.nodup_iff.mp hnd
  have hexe : s.executed.Nodup :=
    ((hslots.of_append_left).of_append_right : s.executed.Nodup)
  have hdisj : List.Disjoint
      (s.pending ++ s.queue ++ s.running ++ s.executed) s.drained :=
    List.disjoint_of_nodup_append hslots
  refine ⟨?_, hexe, ?_, ?_, ?_, fun hb j rest hq => Step.pop s j rest hb hq⟩
  · intro j hj
    have hj' : j ∈ allSlots s := hperm.mem_iff.mp hj
    simpa [allSlots, List.mem_append, or_assoc] using hj'
  · rintro j ⟨hje, hjd⟩
    exact hdisj (List.mem_append_right _ hje) hjd
  · intro j hje
    refine hperm.mem_iff.mpr ?_
    simp [allSlots, hje]
  · intro j hjd
    refine hperm.mem_iff.mpr ?_
    simp [allSlots, hjd]

theorem job_disposition_witness :
    sA.executed.Nodup ∧ ∀ j, ¬(j ∈ sA.executed ∧ j ∈ sA.drained) :=
  ⟨(job_disposition reachable_sA (by decide)).2.1,
   (job_disposition reachable_sA (by decide)).2.2.1⟩

/-- C9: in every reachable state, the fatal assertions are satisfied at
every site that executes them — a worker's `finalizeJobs(1)` (some job is
in flight, so the counter is at least 1), cancellation's
`finalizeJobs(size)` for a non-empty drained queue or owed batch, and,
because `jobsLeft` is a C++ `int` bounded by `INT_MAX` and dominates the
queue size, the drained-count representability check — so no public
operation ever aborts. -/
theorem assertions_unreachable {s : PoolState} (h : Reachable s) :
    (s.running ≠ [] → finalizeAssertsOk 1 s) ∧
    (s.queue ≠ [] → finalizeAssertsOk ((s.queue.length : Nat) : Int) s) ∧
    (∀ b ∈ s.debt, finalizeAssertsOk ((b.length : Nat) : Int) s) ∧
    (s.jobsLeft ≤ 2 ^ 31 - 1 → cancelSizeRepresentable s) := by
  have hc := jobsLeft_eq_counts h
  have hdn := debt_batches_ne_nil h
  refine ⟨?_, ?_, ?_, ?_⟩
  · intro hr
    have h1 : 0 < s.running.length := List.length_pos_iff_ne_nil.mpr hr
    unfold finalizeAssertsOk
    refine ⟨by norm_num, ?_, ?_⟩ <;> (rw [hc]; push_cast; omega)
  · intro hq
    have h1 : 0 < s.queue.length := List.length_pos_iff_ne_nil.mpr hq
    unfold finalizeAssertsOk
    refine ⟨by omega, ?_, ?_⟩ <;> (rw [hc]; push_cast; omega)
  · intro b hb
    have hble : b.length ≤ debtSize s := by
      have hm : b.length ∈ s.debt.map List.length := List.mem_map_of_mem _ hb
      exact List.single_le_sum (fun x _ => Nat.zero_le x) _ hm
    have hbpos : 0 < b.length :=
      List.length_pos_iff_ne_nil.mpr (hdn b hb)
    unfold finalizeAssertsOk
    refine ⟨by omega, ?_, ?_⟩ <;> (rw [hc]; push_cast; omega)
  · intro hbound
    unfold cancelSizeRepresentable
    rw [hc] at hbound
    push_cast at hbound ⊢
    omega

theorem assertions_unreachable_witness :
    finalizeAssertsOk 1 sC ∧ finalizeAssertsOk ((sC.queue.length : Nat) : Int) sC ∧
      cancelSizeRepresentable sC :=
  ⟨(assertions_unreachable reachable_sC).1 (by decide),
   (assertions_unreachable reachable_sC).2.1 (by decide),
   (assertions_unreachable reachable_sC).2.2.2 (by decide)⟩

/-- C10: `enqueue` never inspects `bailout`, so after teardown has begun a
call still succeeds — two enabled atomic actions increment the counter and
append the job, leaving `bailout` set — but from then on every worker
observes `bailout` and terminates without popping (`nextJobAfterWake` is
`none`, no pop action is ever enabled again), so a job queued under
`bailout` is never executed, the counter is never decremented by a worker
for it, and it can only remain queued or be removed by a cancellation
drain. -/
theorem enqueue_after_teardown {s : PoolState} (h : Reachable s)
    (hb : s.bailout = true) (hnd : s.submitted.Nodup)
    (j : Job) (hj : j ∈ s.queue) :
    (∀ t, Reach s t →
        (j ∈ t.queue ∨ j ∈ t.drained) ∧ j ∉ t.executed ∧
          t.popped = s.popped ∧ t.bailout = true) ∧
    (∀ k : Job, ∃ mid last : PoolState, Step s mid ∧ Step mid last ∧
        last.jobsLeft = s.jobsLeft + 1 ∧ last.queue = s.queue ++ [k] ∧
        last.bailout = true) ∧
    nextJobAfterWake s = none := by
  have hme : (s.submitted : Multiset Job) = ((allSlots s : List Job) : Multiset Job) := by
    rw [submitted_eq_slots h, slotsM_coe]
  have hperm : s.submitted.Perm (allSlots s) := Multiset.coe_eq_coe.mp hme
  have hslots : (allSlots s).Nodup := hperm.nodup_iff.mp hnd
  have hA : (s.pending ++ s.queue ++ s.running ++ s.executed).Nodup :=
    hslots.of_append_left
  have hjr : j ∉ s.running := by
    have hd := List.disjoint_of_nodup_append (hA.of_append_left :
      (s.pending ++ s.queue ++ s.running).Nodup)
    exact hd (List.mem_append_right _ hj)
  have hje : j ∉ s.executed := by
    have hd := List.disjoint_of_nodup_append hA
    exact hd (List.mem_append_left _ (List.mem_append_right _ hj))
  refine ⟨?_, ?_, by simp [nextJobAfterWake, hb]⟩
  · intro t ht
    obtain ⟨h1, _, h3⟩ := queue_job_after_bailout ht hb (Or.inl hj) hjr hje
    exact ⟨h1, h3, ht.popped_frozen hb, ht.bailout_persists hb⟩
  · intro k
    refine ⟨_, _, Step.enqInc s k, Step.enqAppend _ k s.pending [] rfl, rfl, rfl, hb⟩

theorem enqueue_after_teardown_witness :
    nextJobAfterWake sB = none :=
  (enqueue_after_teardown reachable_sB rfl (by decide) 7 (by decide)).2.2

/-- C8: in any execution with a single in-order producer (`submitted` and
`appended` agree, every submission complete) and no drain so far,
`cancelPending` returns `C = |queue| ≤ totalSubmitted`, the detached jobs
are exactly the last `C` submitted (the current queue equals the final-`C`
suffix of the submission order, FIFO dequeue having consumed the prefix),
and in any continuation in which no further job is popped and every popped
job has finished, the accumulated result — the sum of any contribution
function over the executed jobs — equals the sum over the first
`totalSubmitted − C` submitted jobs. -/
theorem cancel_fifo {s : PoolState} (h : Reachable s)
    (hd : s.drained = []) (hsp : s.submitted = s.appended) :
    (cancelPending s).1 ≤ s.submitted.length ∧
    (cancelPending s).1 = s.queue.length ∧
    s.queue = s.submitted.drop (s.submitted.length - (cancelPending s).1) ∧
    s.popped = s.submitted.take (s.submitted.length - (cancelPending s).1) ∧
    (∀ (f : Job → Int) (t : PoolState), Reach s t →
        t.running = [] → t.popped = s.popped →
        (t.executed.map f).sum =
          ((s.submitted.take (s.submitted.length - (cancelPending s).1)).map f).sum) := by
  have hfifo : s.appended = s.popped ++ s.queue :=
    appended_eq_popped_append_queue h hd
  have hsub : s.submitted = s.popped ++ s.queue := by rw [hsp, hfifo]
  have hC : (cancelPending s).1 = s.queue.length := cancelPending_fst s
  have hlen : s.submitted.length - (cancelPending s).1 = s.popped.length := by
    rw [hC, hsub]; simp
  have htake : s.popped =
      s.submitted.take (s.submitted.length - (cancelPending s).1) := by
    rw [hlen, hsub, List.take_left]
  have hdrop : s.queue =
      s.submitted.drop (s.submitted.length - (cancelPending s).1) := by
    rw [hlen, hsub, List.drop_left]
  refine ⟨?_, hC, hdrop, htake, ?_⟩
  · rw [hC, hsub]; simp
  · intro f t ht hrun hpop
    have hpe := popped_eq_running_executed (h.trans ht)
    rw [hrun] at hpe
    simp only [Multiset.coe_nil, zero_add] at hpe
    have hperm := (Multiset.coe_eq_coe.mp hpe).symm
    rw [hpop] at hperm
    calc (t.executed.map f).sum = (s.popped.map f).sum := (hperm.map f).sum_eq
      _ = _ := by rw [← htake]

theorem cancel_fifo_witness :
    (cancelPending sA).1 = 1 ∧
      sA.queue = sA.submitted.drop (sA.submitted.length - (cancelPending sA).1) :=
  ⟨(cancel_fifo reachable_sA rfl rfl).2.1,
   (cancel_fifo reachable_sA rfl rfl).2.2.1⟩

end YACReader
